import Mathlib

/-!
Verification of the paper-pipeline repository (agent_app.py) against its
natural-language specification.

Python strings are modelled as lists of characters (`PyStr`), Python floats
as rationals, and the two external services (the arXiv search client and the
generative-text backend) as explicit inputs to the functions that call them:
a search call either raises (`Except.error`) or returns a list of raw
entries, and the generative backend either produced text (`some txt`) or is
unavailable or failed (`none`), in which case the code falls back to the
template writer.  `difflib.SequenceMatcher(None, a, b).ratio()` is an
uninterpreted similarity function passed in as a parameter; the code under
verification never inspects its output beyond aggregating it.
-/

/-- A Python `str` value: its sequence of characters. -/
abbrev PyStr := List Char

/-- The character class Python `str.strip` / `str.isspace` uses
(whitespace per the Unicode database, as CPython implements it). -/
def isPySpace (c : Char) : Bool :=
  decide ((9 ≤ c.toNat ∧ c.toNat ≤ 13) ∨ c.toNat = 32 ∨
    (28 ≤ c.toNat ∧ c.toNat ≤ 31) ∨ c.toNat = 133 ∨ c.toNat = 160 ∨
    c.toNat = 0x1680 ∨ (0x2000 ≤ c.toNat ∧ c.toNat ≤ 0x200a) ∨
    c.toNat = 0x2028 ∨ c.toNat = 0x2029 ∨ c.toNat = 0x202f ∨
    c.toNat = 0x205f ∨ c.toNat = 0x3000)

/-- The line boundaries of Python `str.splitlines`: LF, CR (with CRLF counted
once), VT, FF, FS, GS, RS, NEL, LINE SEPARATOR, PARAGRAPH SEPARATOR. -/
def isLineBoundary (c : Char) : Bool :=
  decide (c.toNat = 10 ∨ c.toNat = 13 ∨ c.toNat = 11 ∨ c.toNat = 12 ∨
    c.toNat = 28 ∨ c.toNat = 29 ∨ c.toNat = 30 ∨ c.toNat = 133 ∨
    c.toNat = 0x2028 ∨ c.toNat = 0x2029)

theorem isPySpace_of_isLineBoundary {c : Char} (h : isLineBoundary c = true) :
    isPySpace c = true := by
  simp only [isLineBoundary, isPySpace, decide_eq_true_eq] at h ⊢
  omega

/-- Python `s.lstrip()`. -/
def lstrip (s : PyStr) : PyStr := s.dropWhile isPySpace

/-- Python `s.rstrip()`. -/
def rstrip (s : PyStr) : PyStr := (s.reverse.dropWhile isPySpace).reverse

/-- Python `s.strip()`. -/
def pyStrip (s : PyStr) : PyStr := rstrip (lstrip s)

/-- Python `sub in s` (substring containment). -/
def pyContains (sub s : PyStr) : Bool := decide (sub <:+: s)

/-- Python `s.replace(old, new)` for a one-character pattern and
replacement, where it coincides with a character map. -/
def pyReplaceChar (old new : Char) (s : PyStr) : PyStr :=
  s.map (fun c => if c = old then new else c)

/-- Python `str.splitlines()` (without keepends): split at every line
boundary, a CRLF pair counting as a single boundary; a trailing boundary
produces no empty final line, and the empty string has no lines. -/
def splitlines : PyStr → List PyStr
  | [] => []
  | '\r' :: '\n' :: t => [] :: splitlines t
  | '\r' :: t => [] :: splitlines t
  | c :: t =>
    if isLineBoundary c then [] :: splitlines t
    else
      match splitlines t with
      | [] => [[c]]
      | l :: ls => (c :: l) :: ls

/-- Helper for `pySplitWs`: `acc` is the current token, reversed; a
whitespace character closes it, any other character extends it. -/
def pySplitWsAux (acc : PyStr) : PyStr → List PyStr
  | [] => if acc = [] then [] else [acc.reverse]
  | c :: t =>
    if isPySpace c then
      if acc = [] then pySplitWsAux [] t else acc.reverse :: pySplitWsAux [] t
    else pySplitWsAux (c :: acc) t

/-- Python `str.split()` with no separator: maximal runs of
non-whitespace characters, so no empty tokens. -/
def pySplitWs (s : PyStr) : List PyStr := pySplitWsAux [] s

/-- Python `sep.join(parts)`. -/
def pyJoin (sep : PyStr) : List PyStr → PyStr
  | [] => []
  | [l] => l
  | l :: ls => l ++ sep ++ pyJoin sep ls

example : splitlines ("a\n\nb\n".data) = [("a").data, [], ("b").data] := by decide
example : splitlines ("a\r\nb".data) = [("a").data, ("b").data] := by decide
example : splitlines [] = [] := by decide
example : pySplitWs ("  The  Role of ".data) = [("The").data, ("Role").data, ("of").data] := by
  decide
example : pyStrip (" a b\n".data) = ("a b").data := by decide
example : pyJoin ['\n'] [("a").data, [], ("b").data] = ("a\n\nb").data := by decide
example : pyContains ("bc").data ("abcd").data = true := by decide

/-! ## Data model (agent_app.py) -/

/-- The paper record built by `ResearchAgent.run`: title, comma-joined
author string, single-line abstract, url (the `Paper` dataclass shape). -/
structure Paper where
  title : PyStr
  authors : PyStr
  abstract : PyStr
  url : PyStr
deriving DecidableEq

/-- A raw arXiv entry as the `arxiv` client hands it over: `r.title`,
`r.authors` (each with a `.name`), `r.summary` (possibly `None`),
`r.entry_id`. -/
structure ArxivEntry where
  title : PyStr
  authorNames : List PyStr
  summary : Option PyStr
  entry_id : PyStr
deriving DecidableEq

/-- One entry of the session `steps` list:
`{'step': name, 'count': n?, 'time': dt}` (only the research step carries a
count). -/
structure StepRecord where
  step : PyStr
  count : Option Nat
  time : ℚ
deriving DecidableEq

/-- The `metrics` value written at the end of a run. -/
structure Metrics where
  total_time : ℚ
  num_papers : Nat
deriving DecidableEq

/-- The similarity report of `PlagiarismAgent.run`. -/
structure SimilarityReport where
  max_similarity : ℚ
  avg_similarity : ℚ
  flags : List PyStr
deriving DecidableEq

/-- A session record as the workflow builds and persists it.  The freshly
initialised dict `{'title': title, 'steps': []}` has no other keys, so the
remaining fields are `Option`s (`none` = key absent). -/
structure Session where
  title : PyStr
  steps : List StepRecord
  metrics : Option Metrics
  papers : Option (List Paper)
  draft : Option PyStr
  edited : Option PyStr
  plagiarism : Option SimilarityReport
deriving DecidableEq

/-- `{'title': title, 'steps': []}`, the record used when no session file
exists (`load_session` returns the falsy `{}`). -/
def initSession (title : PyStr) : Session :=
  { title := title, steps := [], metrics := none, papers := none,
    draft := none, edited := none, plagiarism := none }

/-! ## Context compaction (`compact_context`) -/

/-- `set(t.lower() for t in title.split())`: the distinct lowercased
whitespace tokens of the title. -/
def titleTokens (title : PyStr) : List PyStr :=
  ((pySplitWs title).map (fun t => t.map Char.toLower)).dedup

/-- `score(p)`: how many title tokens occur as substrings of the lowercased
title-plus-abstract text of the candidate. -/
def compactScore (toks : List PyStr) (p : Paper) : Nat :=
  toks.countP (fun tok => pyContains tok ((p.title ++ ' ' :: p.abstract).map Char.toLower))

/-- The formatted block `f"Title: ...\nAuthors: ...\nAbstract: ...\nURL: ...\n\n"`. -/
def paperBlock (p : Paper) : PyStr :=
  ("Title: ").data ++ p.title ++ ("\nAuthors: ").data ++ p.authors ++
  ("\nAbstract: ").data ++ p.abstract ++ ("\nURL: ").data ++ p.url ++ ("\n\n").data

/-- The accumulation loop of `compact_context`: append each chunk while it
still fits, stop at the first chunk that would overflow `max_chars`. -/
def compactLoop (max_chars : Nat) (out : PyStr) : List PyStr → PyStr
  | [] => out
  | chunk :: rest =>
    if out.length + chunk.length > max_chars then out
    else compactLoop max_chars (out ++ chunk) rest

/-- Stable descending insertion: the incoming element passes every element
with a strictly greater key and stops in front of the first element whose
key is at most its own, so it lands after all earlier elements of equal
key. -/
def insertDesc {α : Type} (key : α → Nat) (x : α) : List α → List α
  | [] => [x]
  | y :: ys => if key x < key y then y :: insertDesc key x ys else x :: y :: ys

/-- A stable sort by descending key.  Python `sorted(l, key=k, reverse=True)`
is a stable descending sort, and every stable descending sort by the same
key produces the same list; this structural insertion sort is that list. -/
def sortDesc {α : Type} (key : α → Nat) : List α → List α
  | [] => []
  | x :: xs => insertDesc key x (sortDesc key xs)

/-- `sorted(papers, key=score, reverse=True)` inside `compact_context`. -/
def sortedPapers (title : PyStr) (papers : List Paper) : List Paper :=
  sortDesc (compactScore (titleTokens title)) papers

/-- `compact_context(title, papers, max_chars)`. -/
def compact_context (title : PyStr) (papers : List Paper) (max_chars : Nat) : PyStr :=
  compactLoop max_chars [] ((sortedPapers title papers).map paperBlock)

/-! ## Search stage (`ResearchAgent.run`) -/

/-- `ResearchAgent.run(query)`.  The arXiv call is the external input: an
exception anywhere in the `try` block yields `[]` (the `except` branch);
otherwise each raw entry is formatted with comma-joined authors and a
newline-stripped abstract (`(r.summary or '').replace('\n', ' ')`).
`max_results` only parameterises the outbound query; the bounding of the
result list is the search service's contract. -/
def ResearchAgent.run (max_results : Nat) (outcome : Except Unit (List ArxivEntry)) :
    List Paper :=
  match outcome with
  | .error _ => []
  | .ok rs =>
    rs.map (fun r =>
      { title := r.title
        authors := pyJoin ((", ").data) r.authorNames
        abstract := pyReplaceChar '\n' ' ' (r.summary.getD [])
        url := r.entry_id })

/-! ## Draft stage (`WriterAgent.run`) -/

/-- `WriterAgent.run(title, context)`.  `genai = some txt` models a
configured, reachable generative backend returning `txt` verbatim;
`genai = none` models every other case (library absent, not configured, or
the call raised), which falls through to the template writer.  In the
fallback, `context[:800].strip() or ('This paper discusses ' + title)`
uses the stand-in exactly when the stripped prefix is empty. -/
def WriterAgent.run (genai : Option PyStr) (title context : PyStr) : PyStr :=
  match genai with
  | some txt => txt
  | none =>
    let abstract :=
      if pyStrip (context.take 800) = [] then ("This paper discusses ").data ++ title
      else pyStrip (context.take 800)
    let intro := ("Introduction:\nThis paper addresses ").data ++ title ++
      (". Context and related work: ").data ++ context.take 1500
    let methods :=
      ("Methods:\nThis is a simulated demo. Methods would include literature review and synthesis.").data
    let results :=
      ("Results:\nThis notebook produces a synthetic paper draft based on retrieved abstracts.").data
    let discussion := ("Discussion:\nInterpretation of results and limitations.").data
    let conclusion := ("Conclusion:\nSummary and future work.").data
    let references := ("References:\n(See arXiv links in context.)").data
    ("Abstract:\n").data ++ abstract ++ ("\n\n").data ++ intro ++ ("\n\n").data ++
      methods ++ ("\n\n").data ++ results ++ ("\n\n").data ++ discussion ++
      ("\n\n").data ++ conclusion ++ ("\n\n").data ++ references

/-! ## Edit stage (`EditorAgent.run`) -/

/-- The seven canonical section headers, in the order the editor checks
them. -/
def canonicalHeaders : List PyStr :=
  [("Abstract:").data, ("Introduction:").data, ("Methods:").data, ("Results:").data,
   ("Discussion:").data, ("Conclusion:").data, ("References:").data]

/-- The header-insertion loop: each header absent from the text is
prepended, on a line of its own, in checking order. -/
def insertHeaders (text : PyStr) : PyStr :=
  canonicalHeaders.foldl (fun t h => if pyContains h t then t else h ++ '\n' :: t) text

/-- The blank-line collapsing loop over the rstripped lines, carrying the
`prev_blank` flag: an empty line is kept only when the previous kept line
was not empty. -/
def collapseBlanks (prev_blank : Bool) : List PyStr → List PyStr
  | [] => []
  | l :: ls =>
    if l = [] then
      if prev_blank then collapseBlanks true ls
      else [] :: collapseBlanks true ls
    else l :: collapseBlanks false ls

/-- `EditorAgent.run(paper_text)`: strip, prepend missing headers, rstrip
each line, collapse blank runs, rejoin with newlines. -/
def EditorAgent.run (paper_text : PyStr) : PyStr :=
  let text := insertHeaders (pyStrip paper_text)
  let lines := (splitlines text).map rstrip
  pyJoin ['\n'] (collapseBlanks false lines)

/-! ## Similarity stage (`PlagiarismAgent.run`) -/

/-- Python `round(v, 2)` on the exact rational value: ties and binary float
artifacts are abstracted away. -/
def roundTo2 (v : ℚ) : ℚ := ((round (v * 100) : ℤ) : ℚ) / 100

/-- `PlagiarismAgent.run(paper_text, source_abstracts)` with the
`difflib.SequenceMatcher(None, paper_text, a).ratio()` call supplied as the
function `ratio` (the per-pair `try/except` makes every score total, which
the totality of `ratio` models).  `max(scores)` is the left fold of the
binary max; both aggregates are `0.0` for an empty abstract list. -/
def PlagiarismAgent.run (ratio : PyStr → PyStr → ℚ) (paper_text : PyStr)
    (source_abstracts : List PyStr) : SimilarityReport :=
  let scores := source_abstracts.map (fun a => ratio paper_text a)
  let max_score : ℚ := match scores with
    | [] => 0
    | s :: rest => rest.foldl max s
  let avg_score : ℚ := if scores.length = 0 then 0 else scores.sum / (scores.length : ℚ)
  { max_similarity := roundTo2 (max_score * 100)
    avg_similarity := roundTo2 (avg_score * 100)
    flags := if max_score > 0.6 then [("High similarity with source abstract").data] else [] }

/-! ## Orchestration (`research_agent_workflow`) -/

/-- The external world of one run: the outcome of the arXiv search, the
generative backend (or its absence/failure), the similarity primitive, and
the wall-clock samples the workflow takes (`time.time()` at run start, at
each stage boundary, and at run end). -/
structure RunEnv where
  searchOutcome : Except Unit (List ArxivEntry)
  genai : Option PyStr
  ratio : PyStr → PyStr → ℚ
  tStart : ℚ
  t0_research : ℚ
  t1_research : ℚ
  t0_draft : ℚ
  t1_draft : ℚ
  t0_edit : ℚ
  t1_edit : ℚ
  t0_plag : ℚ
  t1_plag : ℚ
  tEnd : ℚ

/-- The session-store traffic of a run: `load_session` at the start,
`save_session` at the end. -/
inductive SessionEvent where
  | read (session_id : PyStr)
  | write (session_id : PyStr) (data : Session)
deriving DecidableEq

/-- The dict `research_agent_workflow` returns. -/
structure WorkflowResult where
  session_id : PyStr
  session : Session
  draft : PyStr
  edited : PyStr
  plagiarism : SimilarityReport
deriving DecidableEq

/-- `research_agent_workflow(title, session_id, max_results)`.  `disk` is
what `load_session` finds: `none` when no file exists (the falsy `{}`
branch, replaced by the fresh record) and `some s` for a stored record.
Python `session_id or title.replace(' ', '_')[:40]` also falls back on an
empty caller-supplied id.  The function returns its result dict together
with the session-store events it performed, in order. -/
def research_agent_workflow (env : RunEnv) (title : PyStr)
    (session_id : Option PyStr) (max_results : Nat) (disk : Option Session) :
    WorkflowResult × List SessionEvent :=
  let sid := match session_id with
    | some s => if s = [] then (pyReplaceChar ' ' '_' title).take 40 else s
    | none => (pyReplaceChar ' ' '_' title).take 40
  let session0 := match disk with
    | some s => s
    | none => initSession title
  let papers := ResearchAgent.run max_results env.searchOutcome
  let s1 : Session := { session0 with steps := session0.steps ++
    [{ step := ("research").data, count := some papers.length,
       time := env.t1_research - env.t0_research }] }
  let context := compact_context title papers 4000
  let draft := WriterAgent.run env.genai title context
  let s2 : Session := { s1 with steps := s1.steps ++
    [{ step := ("draft").data, count := none, time := env.t1_draft - env.t0_draft }] }
  let edited := EditorAgent.run draft
  let s3 : Session := { s2 with steps := s2.steps ++
    [{ step := ("edit").data, count := none, time := env.t1_edit - env.t0_edit }] }
  let abstracts := papers.map Paper.abstract
  let report := PlagiarismAgent.run env.ratio edited abstracts
  let s4 : Session := { s3 with steps := s3.steps ++
    [{ step := ("plagiarism").data, count := none, time := env.t1_plag - env.t0_plag }] }
  let final : Session := { s4 with
    metrics := some { total_time := env.tEnd - env.tStart, num_papers := papers.length }
    papers := some papers
    draft := some (draft.take 2000)
    edited := some (edited.take 2000)
    plagiarism := some report }
  ({ session_id := sid, session := final, draft := draft, edited := edited,
     plagiarism := report },
   [SessionEvent.read sid, SessionEvent.write sid final])

/-! ## Lemmas: the stable descending sort -/

theorem insertDesc_lt {α : Type} (key : α → Nat) (x y : α) (ys : List α)
    (hk : key x < key y) : insertDesc key x (y :: ys) = y :: insertDesc key x ys := by
  simp [insertDesc, hk]

theorem insertDesc_ge {α : Type} (key : α → Nat) (x y : α) (ys : List α)
    (hk : ¬key x < key y) : insertDesc key x (y :: ys) = x :: y :: ys := by
  simp [insertDesc, hk]

theorem mem_insertDesc {α : Type} (key : α → Nat) (x z : α) (l : List α)
    (h : z ∈ insertDesc key x l) : z = x ∨ z ∈ l := by
  induction l with
  | nil => simpa [insertDesc] using h
  | cons y ys ih =>
    by_cases hk : key x < key y
    · rw [insertDesc_lt key x y ys hk] at h
      rcases List.mem_cons.1 h with rfl | h
      · exact Or.inr (List.mem_cons_self _ _)
      · rcases ih h with h | h
        · exact Or.inl h
        · exact Or.inr (List.mem_cons_of_mem _ h)
    · rw [insertDesc_ge key x y ys hk] at h
      rcases List.mem_cons.1 h with rfl | h
      · exact Or.inl rfl
      · exact Or.inr h

theorem perm_insertDesc {α : Type} (key : α → Nat) (x : α) (l : List α) :
    (insertDesc key x l).Perm (x :: l) := by
  induction l with
  | nil => simp [insertDesc]
  | cons y ys ih =>
    by_cases hk : key x < key y
    · simp only [insertDesc, if_pos hk]
      exact (ih.cons y).trans (List.Perm.swap x y ys)
    · simp [insertDesc, if_neg hk]

theorem perm_sortDesc {α : Type} (key : α → Nat) (l : List α) :
    (sortDesc key l).Perm l := by
  induction l with
  | nil => simp [sortDesc]
  | cons x xs ih => exact (perm_insertDesc key x (sortDesc key xs)).trans (ih.cons x)

theorem pairwise_insertDesc {α : Type} (key : α → Nat) (x : α) (l : List α)
    (h : l.Pairwise (fun a b => key b ≤ key a)) :
    (insertDesc key x l).Pairwise (fun a b => key b ≤ key a) := by
  induction l with
  | nil => simp [insertDesc]
  | cons y ys ih =>
    rcases List.pairwise_cons.1 h with ⟨hy, hys⟩
    by_cases hk : key x < key y
    · simp only [insertDesc, if_pos hk]
      refine List.pairwise_cons.2 ⟨?_, ih hys⟩
      intro z hz
      rcases mem_insertDesc key x z ys hz with rfl | hz
      · exact Nat.le_of_lt hk
      · exact hy z hz
    · simp only [insertDesc, if_neg hk]
      refine List.pairwise_cons.2 ⟨?_, h⟩
      intro z hz
      rcases List.mem_cons.1 hz with rfl | hz
      · exact Nat.le_of_not_lt hk
      · exact le_trans (hy z hz) (Nat.le_of_not_lt hk)

theorem pairwise_sortDesc {α : Type} (key : α → Nat) (l : List α) :
    (sortDesc key l).Pairwise (fun a b => key b ≤ key a) := by
  induction l with
  | nil => simp [sortDesc]
  | cons x xs ih => exact pairwise_insertDesc key x (sortDesc key xs) ih

theorem filter_insertDesc {α : Type} (key : α → Nat) (x : α) (l : List α) (n : Nat) :
    (insertDesc key x l).filter (fun y => decide (key y = n)) =
      if key x = n then x :: l.filter (fun y => decide (key y = n))
      else l.filter (fun y => decide (key y = n)) := by
  induction l with
  | nil => by_cases hx : key x = n <;> simp [insertDesc, hx]
  | cons y ys ih =>
    by_cases hk : key x < key y
    · rw [insertDesc_lt key x y ys hk, List.filter_cons, ih]
      by_cases hy : key y = n
      · have hx : ¬key x = n := by omega
        rw [if_pos (by simp [hy]), if_neg hx, if_neg hx, List.filter_cons,
          if_pos (by simp [hy])]
      · by_cases hx : key x = n
        · rw [if_neg (by simp [hy]), if_pos hx, if_pos hx, List.filter_cons,
            if_neg (by simp [hy])]
        · rw [if_neg (by simp [hy]), if_neg hx, if_neg hx, List.filter_cons,
            if_neg (by simp [hy])]
    · rw [insertDesc_ge key x y ys hk, List.filter_cons]
      by_cases hx : key x = n
      · rw [if_pos (by simp [hx]), if_pos hx]
      · rw [if_neg (by simp [hx]), if_neg hx]

theorem filter_sortDesc {α : Type} (key : α → Nat) (l : List α) (n : Nat) :
    (sortDesc key l).filter (fun y => decide (key y = n)) =
      l.filter (fun y => decide (key y = n)) := by
  induction l with
  | nil => rfl
  | cons x xs ih =>
    show (insertDesc key x (sortDesc key xs)).filter _ = _
    rw [filter_insertDesc, ih, List.filter_cons]
    by_cases hx : key x = n
    · rw [if_pos hx, if_pos (by simp [hx])]
    · rw [if_neg hx, if_neg (by simp [hx])]

/-! ## Lemmas: the compaction loop -/

theorem compactLoop_length_le (m : Nat) :
    ∀ (bs : List PyStr) (out : PyStr), out.length ≤ m →
      (compactLoop m out bs).length ≤ m := by
  intro bs
  induction bs with
  | nil => intro out h; simpa [compactLoop] using h
  | cons b rest ih =>
    intro out h
    by_cases hb : out.length + b.length > m
    · simpa [compactLoop, hb] using h
    · have : (out ++ b).length ≤ m := by simp; omega
      simpa [compactLoop, hb] using ih (out ++ b) this

theorem compactLoop_eq_take (m : Nat) :
    ∀ (bs : List PyStr) (out : PyStr),
      ∃ k, compactLoop m out bs = out ++ (bs.take k).flatten := by
  intro bs
  induction bs with
  | nil => intro out; exact ⟨0, by simp [compactLoop]⟩
  | cons b rest ih =>
    intro out
    by_cases hb : out.length + b.length > m
    · exact ⟨0, by simp [compactLoop, hb]⟩
    · rcases ih (out ++ b) with ⟨k, hk⟩
      exact ⟨k + 1, by simp [compactLoop, hb, hk]⟩

/-- A concrete candidate used by several witnesses. -/
def samplePaper : Paper :=
  { title := ("Graph Nets").data, authors := ("A. Author").data,
    abstract := ("On graphs.").data, url := ("http://x/1").data }

/-- C3: for every title, candidate list and character budget, the blob
returned by `compact_context` never exceeds the budget (hence never exceeds
the budget plus the length of an in-progress block), is a concatenation of
whole formatted blocks in emission order — so no block is ever truncated —
is empty whenever the first block alone exceeds the budget, and is empty
for an empty candidate list. -/
theorem compact_context_budget (title : PyStr) (papers : List Paper) (max_chars : Nat) :
    (papers = [] → compact_context title papers max_chars = []) ∧
    (compact_context title papers max_chars).length ≤ max_chars ∧
    (∃ k, compact_context title papers max_chars =
      (((sortedPapers title papers).map paperBlock).take k).flatten) ∧
    (∀ b bs, (sortedPapers title papers).map paperBlock = b :: bs →
      max_chars < b.length → compact_context title papers max_chars = []) := by
  refine ⟨?_, ?_, ?_, ?_⟩
  · rintro rfl; rfl
  · exact compactLoop_length_le max_chars _ [] (Nat.zero_le _)
  · simpa using compactLoop_eq_take max_chars ((sortedPapers title papers).map paperBlock) []
  · intro b bs hbs hlen
    have hc : ([] : PyStr).length + b.length > max_chars := by simpa using hlen
    show compactLoop max_chars [] ((sortedPapers title papers).map paperBlock) = []
    rw [hbs]
    show (if ([] : PyStr).length + b.length > max_chars then ([] : PyStr)
      else compactLoop max_chars ([] ++ b) bs) = []
    rw [if_pos hc]

theorem compact_context_budget_witness :
    compact_context ("t").data [] 4000 = [] ∧
    compact_context ("t").data [samplePaper] 3 = [] := by
  constructor
  · exact (compact_context_budget (("t").data) [] 4000).1 rfl
  · exact (compact_context_budget (("t").data) [samplePaper] 3).2.2.2
      (paperBlock samplePaper) [] rfl (by decide)

/-- C7: each candidate is scored by how many distinct lowercase whitespace
tokens of the title occur as substrings of its lowercased title-plus-abstract
text, and blocks are emitted following a score-descending reordering of the
candidates that is a permutation, pairwise non-increasing in score, and
stable (candidates of equal score keep their original relative order). -/
theorem compact_context_order (title : PyStr) (papers : List Paper) (max_chars : Nat) :
    (∀ p, compactScore (titleTokens title) p =
      ((pySplitWs title).map (fun t => t.map Char.toLower)).dedup.countP
        (fun tok => decide (tok <:+: ((p.title ++ ' ' :: p.abstract).map Char.toLower)))) ∧
    (sortedPapers title papers).Pairwise
      (fun a b => compactScore (titleTokens title) b ≤ compactScore (titleTokens title) a) ∧
    (sortedPapers title papers).Perm papers ∧
    (∀ n, (sortedPapers title papers).filter
        (fun p => decide (compactScore (titleTokens title) p = n)) =
      papers.filter (fun p => decide (compactScore (titleTokens title) p = n))) ∧
    (∃ k, compact_context title papers max_chars =
      (((sortedPapers title papers).map paperBlock).take k).flatten) := by
  refine ⟨fun p => rfl, pairwise_sortDesc _ papers, perm_sortDesc _ papers,
    fun n => filter_sortDesc _ papers n, ?_⟩
  simpa using compactLoop_eq_take max_chars ((sortedPapers title papers).map paperBlock) []

/-! ## Lemmas: list maxima and 2-decimal rounding -/

theorem le_foldl_max_self (s : ℚ) (rest : List ℚ) : s ≤ rest.foldl max s := by
  induction rest generalizing s with
  | nil => exact le_refl s
  | cons r rs ih => exact le_trans (le_max_left s r) (ih (max s r))

theorem mem_foldl_max (s : ℚ) (rest : List ℚ) : rest.foldl max s ∈ s :: rest := by
  induction rest generalizing s with
  | nil => simp
  | cons r rs ih =>
    have : (r :: rs).foldl max s = rs.foldl max (max s r) := rfl
    rw [this]
    rcases List.mem_cons.1 (ih (max s r)) with h | h
    · rw [h]
      rcases max_choice s r with hm | hm <;> rw [hm] <;> simp
    · simp [List.mem_cons_of_mem, h]

theorem le_foldl_max (rest : List ℚ) : ∀ (s : ℚ), ∀ x ∈ s :: rest, x ≤ rest.foldl max s := by
  induction rest with
  | nil =>
    intro s x hx
    rw [List.mem_singleton] at hx
    exact le_of_eq hx
  | cons r rs ih =>
    intro s x hx
    show x ≤ rs.foldl max (max s r)
    rcases List.mem_cons.1 hx with rfl | hx
    · exact le_trans (le_max_left x r) (le_foldl_max_self _ rs)
    · rcases List.mem_cons.1 hx with rfl | hx
      · exact le_trans (le_max_right s x) (le_foldl_max_self _ rs)
      · exact ih (max s r) x (List.mem_cons_of_mem _ hx)

theorem roundTo2_mono {a b : ℚ} (h : a ≤ b) : roundTo2 a ≤ roundTo2 b := by
  have h1 : round (a * 100) ≤ round (b * 100) := by
    rw [round_eq, round_eq]
    exact Int.floor_mono (by linarith)
  have h2 : ((round (a * 100) : ℤ) : ℚ) ≤ ((round (b * 100) : ℤ) : ℚ) := by
    exact_mod_cast h1
  unfold roundTo2
  linarith

theorem roundTo2_zero : roundTo2 0 = 0 := by
  norm_num [roundTo2]

/-- C5: the similarity report carries the maximum per-abstract ratio and the
mean ratio, each times 100 and rounded to two decimals, both zero for an
empty abstract list, and its flags list is non-empty exactly when the
maximum ratio strictly exceeds 0.6. -/
theorem plagiarism_report_spec (ratio : PyStr → PyStr → ℚ) (text : PyStr)
    (abstracts : List PyStr) :
    (abstracts = [] → PlagiarismAgent.run ratio text abstracts =
      { max_similarity := 0, avg_similarity := 0, flags := [] }) ∧
    (abstracts ≠ [] → ∃ M, M ∈ abstracts.map (fun a => ratio text a) ∧
      (∀ x ∈ abstracts.map (fun a => ratio text a), x ≤ M) ∧
      (PlagiarismAgent.run ratio text abstracts).max_similarity = roundTo2 (M * 100) ∧
      (PlagiarismAgent.run ratio text abstracts).avg_similarity =
        roundTo2 ((abstracts.map (fun a => ratio text a)).sum / (abstracts.length : ℚ) * 100) ∧
      ((PlagiarismAgent.run ratio text abstracts).flags ≠ [] ↔ (0.6 : ℚ) < M)) := by
  constructor
  · rintro rfl
    simp [PlagiarismAgent.run]
    norm_num [roundTo2]
  · intro h
    obtain ⟨a, as, rfl⟩ := List.exists_cons_of_ne_nil h
    refine ⟨(as.map (ratio text)).foldl max (ratio text a), ?_, ?_, ?_, ?_, ?_⟩
    · simpa using mem_foldl_max (ratio text a) (as.map (ratio text))
    · intro x hx
      exact le_foldl_max _ _ x (by simpa using hx)
    · simp [PlagiarismAgent.run]
    · simp [PlagiarismAgent.run]
    · simp only [PlagiarismAgent.run, List.map_cons]
      split_ifs with hM
      · simpa using hM
      · simpa using hM

theorem plagiarism_report_spec_witness :
    PlagiarismAgent.run (fun _ _ => (7/10 : ℚ)) ("t").data [] =
      { max_similarity := 0, avg_similarity := 0, flags := [] } ∧
    ((PlagiarismAgent.run (fun _ _ => (7/10 : ℚ)) ("t").data [("a").data]).flags ≠ [] ↔
      (0.6 : ℚ) < 7/10) := by
  constructor
  · exact (plagiarism_report_spec (fun _ _ => (7/10 : ℚ)) (("t").data) []).1 rfl
  · obtain ⟨M, hM, -, -, -, hflag⟩ :=
      (plagiarism_report_spec (fun _ _ => (7/10 : ℚ)) (("t").data) [("a").data]).2
        (by decide)
    have hMv : M = 7/10 := by simpa using hM
    exact hMv ▸ hflag

/-- The report on a non-empty abstract list, field by field. -/
theorem plagiarism_run_cons (ratio : PyStr → PyStr → ℚ) (text a : PyStr)
    (as : List PyStr) :
    PlagiarismAgent.run ratio text (a :: as) =
      { max_similarity := roundTo2 ((as.map (ratio text)).foldl max (ratio text a) * 100)
        avg_similarity := roundTo2 ((ratio text a :: as.map (ratio text)).sum /
          ((as.length : ℚ) + 1) * 100)
        flags := if (0.6 : ℚ) < (as.map (ratio text)).foldl max (ratio text a)
          then [("High similarity with source abstract").data] else [] } := by
  simp only [PlagiarismAgent.run, List.map_cons, List.length_cons]
  rw [if_neg (by omega)]
  simp only [SimilarityReport.mk.injEq]
  refine ⟨trivial, ?_, trivial⟩
  rw [List.length_map]
  push_cast
  rfl

/-- C10: the reported average similarity never exceeds the reported maximum
similarity (the mean of the per-abstract ratios is at most their maximum,
and rounding preserves the order). -/
theorem plagiarism_avg_le_max (ratio : PyStr → PyStr → ℚ) (text : PyStr)
    (abstracts : List PyStr) :
    (PlagiarismAgent.run ratio text abstracts).avg_similarity ≤
      (PlagiarismAgent.run ratio text abstracts).max_similarity := by
  cases abstracts with
  | nil => simp [PlagiarismAgent.run]
  | cons a as =>
    rw [plagiarism_run_cons]
    apply roundTo2_mono
    have hub : ∀ x ∈ ratio text a :: as.map (ratio text),
        x ≤ (as.map (ratio text)).foldl max (ratio text a) :=
      le_foldl_max (as.map (ratio text)) (ratio text a)
    have hsum := List.sum_le_card_nsmul (ratio text a :: as.map (ratio text))
      ((as.map (ratio text)).foldl max (ratio text a)) hub
    rw [List.length_cons, List.length_map] at hsum
    have hsum2 : (ratio text a :: as.map (ratio text)).sum ≤
        ((as.length : ℚ) + 1) * (as.map (ratio text)).foldl max (ratio text a) := by
      rw [nsmul_eq_mul] at hsum
      push_cast at hsum ⊢
      linarith
    have hn : (0 : ℚ) < (as.length : ℚ) + 1 := by positivity
    have havg : (ratio text a :: as.map (ratio text)).sum / ((as.length : ℚ) + 1) ≤
        (as.map (ratio text)).foldl max (ratio text a) := by
      rw [div_le_iff₀ hn]
      linarith
    nlinarith [havg]

/-! ## Search-stage and writer-stage claims -/

/-- C9: a failed search yields the empty list (the exception never escapes
the stage), and a successful search — whose result list the arXiv client
bounds by `max_results` — yields one formatted record per raw entry, with
comma-joined authors, the newline-stripped abstract, and the entry url. -/
theorem research_stage_spec (max_results : Nat) :
    (∀ e, ResearchAgent.run max_results (Except.error e) = []) ∧
    (∀ rs, rs.length ≤ max_results →
      (ResearchAgent.run max_results (Except.ok rs)).length ≤ max_results ∧
      ∀ p ∈ ResearchAgent.run max_results (Except.ok rs), ∃ r ∈ rs,
        p.title = r.title ∧
        p.authors = pyJoin ((", ").data) r.authorNames ∧
        p.abstract = pyReplaceChar '\n' ' ' (r.summary.getD []) ∧
        p.url = r.entry_id ∧
        ∀ c ∈ p.abstract, c ≠ '\n') := by
  refine ⟨fun e => rfl, fun rs h => ⟨by simpa [ResearchAgent.run] using h, ?_⟩⟩
  intro p hp
  simp only [ResearchAgent.run, List.mem_map] at hp
  obtain ⟨r, hr, rfl⟩ := hp
  refine ⟨r, hr, rfl, rfl, rfl, rfl, ?_⟩
  intro c hc
  simp only [pyReplaceChar, List.mem_map] at hc
  obtain ⟨c0, -, rfl⟩ := hc
  by_cases h0 : c0 = '\n'
  · subst h0; decide
  · simp [h0]

/-- A concrete raw entry used by witnesses. -/
def sampleEntry : ArxivEntry :=
  { title := ("T").data, authorNames := [("X").data, ("Y").data],
    summary := some ("a\nb").data, entry_id := ("id1").data }

theorem research_stage_spec_witness :
    ResearchAgent.run 2 (Except.error ()) = [] ∧
    (ResearchAgent.run 2 (Except.ok [sampleEntry])).length ≤ 2 := by
  exact ⟨(research_stage_spec 2).1 (),
    ((research_stage_spec 2).2 [sampleEntry] (by decide)).1⟩

theorem infix_append_of_right {h t : PyStr} (s : PyStr) (hin : h <:+: t) :
    h <:+: s ++ t := by
  obtain ⟨u, v, rfl⟩ := hin
  exact ⟨s ++ u, v, by simp [List.append_assoc]⟩

theorem infix_append_of_left {h t : PyStr} (s : PyStr) (hin : h <:+: t) :
    h <:+: t ++ s := by
  obtain ⟨u, v, rfl⟩ := hin
  exact ⟨u, v ++ s, by simp [List.append_assoc]⟩

/-- The document claim C6 asserts for the fallback path, written from the
claim text: the Abstract slot holds the raw first 800 characters of the
context, with the stand-in exactly when the context is empty.  (The code
instead strips that prefix and uses the stand-in whenever the stripped
prefix is empty.)  Used only to refute the claim as stated. -/
def c6ClaimedDoc (title context : PyStr) : PyStr :=
  ("Abstract:\n").data ++
    (if context = [] then ("This paper discusses ").data ++ title
     else context.take 800) ++
  ("\n\n").data ++ ("Introduction:\nThis paper addresses ").data ++ title ++
    (". Context and related work: ").data ++ context.take 1500 ++
  ("\n\n").data ++
  ("Methods:\nThis is a simulated demo. Methods would include literature review and synthesis.").data ++
  ("\n\n").data ++
  ("Results:\nThis notebook produces a synthetic paper draft based on retrieved abstracts.").data ++
  ("\n\n").data ++ ("Discussion:\nInterpretation of results and limitations.").data ++
  ("\n\n").data ++ ("Conclusion:\nSummary and future work.").data ++
  ("\n\n").data ++ ("References:\n(See arXiv links in context.)").data

set_option maxRecDepth 8000 in
set_option maxHeartbeats 1000000 in
/-- C6 as stated is false: on context `" x "` the fallback Abstract body is
the stripped `"x"`, not the raw first 800 characters `" x "`. -/
theorem writer_fallback_counterexample :
    WriterAgent.run none (("t").data) ((" x ").data) ≠
      c6ClaimedDoc (("t").data) ((" x ").data) := by
  decide

/-- C6 amended: on the fallback path the draft is a non-empty document
containing all seven section headers; its Abstract slot holds the first 800
characters of the context with surrounding whitespace stripped (or the
one-line stand-in when that stripped prefix is empty — in particular when
the context is empty), and its Introduction embeds the first 1500
characters of the context. -/
theorem writer_fallback_spec (title context : PyStr) :
    WriterAgent.run none title context ≠ [] ∧
    (∀ h ∈ canonicalHeaders, h <:+: WriterAgent.run none title context) ∧
    WriterAgent.run none title context =
      ("Abstract:\n").data ++
        (if pyStrip (context.take 800) = [] then ("This paper discusses ").data ++ title
         else pyStrip (context.take 800)) ++ ("\n\n").data ++
      (("Introduction:\nThis paper addresses ").data ++ title ++
        (". Context and related work: ").data ++ context.take 1500) ++ ("\n\n").data ++
      ("Methods:\nThis is a simulated demo. Methods would include literature review and synthesis.").data ++
      ("\n\n").data ++
      ("Results:\nThis notebook produces a synthetic paper draft based on retrieved abstracts.").data ++
      ("\n\n").data ++ ("Discussion:\nInterpretation of results and limitations.").data ++
      ("\n\n").data ++ ("Conclusion:\nSummary and future work.").data ++
      ("\n\n").data ++ ("References:\n(See arXiv links in context.)").data := by
  have hdoc : WriterAgent.run none title context =
      ([("Abstract:\n").data,
        (if pyStrip (context.take 800) = [] then ("This paper discusses ").data ++ title
         else pyStrip (context.take 800)),
        ("\n\n").data, ("Introduction:\nThis paper addresses ").data, title,
        (". Context and related work: ").data, context.take 1500, ("\n\n").data,
        ("Methods:\nThis is a simulated demo. Methods would include literature review and synthesis.").data,
        ("\n\n").data,
        ("Results:\nThis notebook produces a synthetic paper draft based on retrieved abstracts.").data,
        ("\n\n").data, ("Discussion:\nInterpretation of results and limitations.").data,
        ("\n\n").data, ("Conclusion:\nSummary and future work.").data,
        ("\n\n").data, ("References:\n(See arXiv links in context.)").data] :
        List PyStr).flatten := by
    show ("Abstract:\n").data ++
        (if pyStrip (context.take 800) = [] then ("This paper discusses ").data ++ title
         else pyStrip (context.take 800)) ++ ("\n\n").data ++
      (("Introduction:\nThis paper addresses ").data ++ title ++
        (". Context and related work: ").data ++ context.take 1500) ++ ("\n\n").data ++
      ("Methods:\nThis is a simulated demo. Methods would include literature review and synthesis.").data ++
      ("\n\n").data ++
      ("Results:\nThis notebook produces a synthetic paper draft based on retrieved abstracts.").data ++
      ("\n\n").data ++ ("Discussion:\nInterpretation of results and limitations.").data ++
      ("\n\n").data ++ ("Conclusion:\nSummary and future work.").data ++
      ("\n\n").data ++ ("References:\n(See arXiv links in context.)").data = _
    simp only [List.flatten_cons, List.flatten_nil, List.append_nil, List.append_assoc]
  have hdrs : ∀ h ∈ canonicalHeaders, h <:+: WriterAgent.run none title context := by
    intro h hmem
    rw [hdoc]
    simp only [canonicalHeaders, List.mem_cons, List.not_mem_nil, or_false] at hmem
    rcases hmem with rfl | rfl | rfl | rfl | rfl | rfl | rfl
    · exact (by decide :
        ("Abstract:").data <:+: ("Abstract:\n").data).trans
        (List.infix_of_mem_flatten (by simp))
    · exact (by decide : ("Introduction:").data <:+:
        ("Introduction:\nThis paper addresses ").data).trans
        (List.infix_of_mem_flatten (by simp))
    · exact (by decide : ("Methods:").data <:+:
        ("Methods:\nThis is a simulated demo. Methods would include literature review and synthesis.").data).trans
        (List.infix_of_mem_flatten (by simp))
    · exact (by decide : ("Results:").data <:+:
        ("Results:\nThis notebook produces a synthetic paper draft based on retrieved abstracts.").data).trans
        (List.infix_of_mem_flatten (by simp))
    · exact (by decide : ("Discussion:").data <:+:
        ("Discussion:\nInterpretation of results and limitations.").data).trans
        (List.infix_of_mem_flatten (by simp))
    · exact (by decide : ("Conclusion:").data <:+:
        ("Conclusion:\nSummary and future work.").data).trans
        (List.infix_of_mem_flatten (by simp))
    · exact (by decide : ("References:").data <:+:
        ("References:\n(See arXiv links in context.)").data).trans
        (List.infix_of_mem_flatten (by simp))
  refine ⟨?_, hdrs, rfl⟩
  have habs : ("Abstract:").data <:+: WriterAgent.run none title context :=
    hdrs (("Abstract:").data) (by simp [canonicalHeaders])
  obtain ⟨u, v, huv⟩ := habs
  intro hnil
  rw [hnil] at huv
  have := List.append_eq_nil.1 (List.append_eq_nil.1 huv).1
  exact absurd this.2 (by decide)

/-! ## Orchestration claims -/

/-- The four step records one run appends, in order: research (with the
paper count), draft, edit, plagiarism, each carrying its wall-clock
duration. -/
def runStepRecords (env : RunEnv) (n : Nat) : List StepRecord :=
  [{ step := ("research").data, count := some n,
     time := env.t1_research - env.t0_research },
   { step := ("draft").data, count := none, time := env.t1_draft - env.t0_draft },
   { step := ("edit").data, count := none, time := env.t1_edit - env.t0_edit },
   { step := ("plagiarism").data, count := none, time := env.t1_plag - env.t0_plag }]

/-- A concrete environment for counterexample runs: the search returns no
papers, the generative backend answers, similarity is constantly zero. -/
def sampleEnv : RunEnv :=
  { searchOutcome := Except.ok [], genai := some ("Sample draft.").data,
    ratio := fun _ _ => 0, tStart := 0, t0_research := 1, t1_research := 2,
    t0_draft := 3, t1_draft := 4, t0_edit := 5, t1_edit := 6, t0_plag := 7,
    t1_plag := 8, tEnd := 9 }

/-- A stored session from an earlier run of the same id, with one step
record of its own. -/
def priorSession : Session :=
  { title := ("old title").data,
    steps := [{ step := ("research").data, count := some 3, time := 1 }],
    metrics := none, papers := none, draft := none, edited := none,
    plagiarism := none }

set_option maxRecDepth 8000 in
set_option maxHeartbeats 1000000 in
/-- C1 as stated is false: with a prior on-disk session carrying one step
record, the record written by the run holds that prior step followed by the
four current ones, not only the current run's step records. -/
theorem workflow_only_current_steps_counterexample :
    ((research_agent_workflow sampleEnv (("t").data) (some (("sid").data)) 5
        (some priorSession)).1.session).steps ≠
      runStepRecords sampleEnv 0 := by
  decide

/-- C1 amended: when a prior on-disk session exists, its `steps` list and
its `title` survive into the newly written record — the written `steps` is
the prior steps followed by the current run's four step records — while
`metrics`, `papers`, `draft`, `edited` and `plagiarism` are overwritten
with current-run values. -/
theorem workflow_prior_session_survival (env : RunEnv) (title : PyStr)
    (session_id : Option PyStr) (max_results : Nat) (p : Session) :
    ((research_agent_workflow env title session_id max_results (some p)).1.session).steps =
      p.steps ++ runStepRecords env
        (ResearchAgent.run max_results env.searchOutcome).length ∧
    ((research_agent_workflow env title session_id max_results (some p)).1.session).title =
      p.title ∧
    ((research_agent_workflow env title session_id max_results (some p)).1.session).metrics =
      some { total_time := env.tEnd - env.tStart,
             num_papers := (ResearchAgent.run max_results env.searchOutcome).length } ∧
    ((research_agent_workflow env title session_id max_results (some p)).1.session).papers =
      some (ResearchAgent.run max_results env.searchOutcome) ∧
    ((research_agent_workflow env title session_id max_results (some p)).1.session).draft =
      some ((WriterAgent.run env.genai title (compact_context title
        (ResearchAgent.run max_results env.searchOutcome) 4000)).take 2000) ∧
    ((research_agent_workflow env title session_id max_results (some p)).1.session).edited =
      some ((EditorAgent.run (WriterAgent.run env.genai title (compact_context title
        (ResearchAgent.run max_results env.searchOutcome) 4000))).take 2000) ∧
    ((research_agent_workflow env title session_id max_results (some p)).1.session).plagiarism =
      some (PlagiarismAgent.run env.ratio
        (EditorAgent.run (WriterAgent.run env.genai title (compact_context title
          (ResearchAgent.run max_results env.searchOutcome) 4000)))
        ((ResearchAgent.run max_results env.searchOutcome).map Paper.abstract)) := by
  refine ⟨?_, rfl, rfl, rfl, rfl, rfl, rfl⟩
  simp [research_agent_workflow, runStepRecords]

set_option maxRecDepth 8000 in
set_option maxHeartbeats 1000000 in
/-- C2 as stated is false: sections 4.1 to 4.5 name five stages, but a run
appends only four step records — the compaction stage (4.2) is neither
timed nor recorded. -/
theorem workflow_five_steps_counterexample :
    ((research_agent_workflow sampleEnv (("t").data) none 5 none).1.session).steps.length ≠ 5 := by
  decide

/-- C2 amended: every run appends exactly one step record for each of the
four timed stages — search, draft, edit, plagiarism, in that fixed order,
each carrying its wall-clock duration — to the loaded (or freshly
initialised) steps list; the compaction stage runs between search and draft
but gets no record; and the run performs exactly one session read at the
start and one session write, of the final record, at the end. -/
theorem workflow_steps_and_io (env : RunEnv) (title : PyStr)
    (session_id : Option PyStr) (max_results : Nat) (disk : Option Session) :
    ((research_agent_workflow env title session_id max_results disk).1.session).steps =
      (match disk with | some s => s.steps | none => []) ++
        runStepRecords env (ResearchAgent.run max_results env.searchOutcome).length ∧
    (research_agent_workflow env title session_id max_results disk).2 =
      [SessionEvent.read
        (research_agent_workflow env title session_id max_results disk).1.session_id,
       SessionEvent.write
        (research_agent_workflow env title session_id max_results disk).1.session_id
        (research_agent_workflow env title session_id max_results disk).1.session] := by
  cases disk <;> refine ⟨?_, rfl⟩ <;>
    simp [research_agent_workflow, runStepRecords, initSession]

/-! ## Lemmas: stripping -/

theorem dropWhile_append_cons (p : Char → Bool) (a : List Char) (c : Char)
    (t : List Char) (hc : p c = false) :
    (a ++ c :: t).dropWhile p = a.dropWhile p ++ c :: t := by
  induction a with
  | nil => simp [List.dropWhile_cons, hc]
  | cons d a' ih =>
    by_cases hd : p d
    · simp [List.dropWhile_cons, hd, ih]
    · simp [List.dropWhile_cons, hd]

theorem rstrip_eq_nil_iff {l : PyStr} : rstrip l = [] ↔ ∀ c ∈ l, isPySpace c = true := by
  rw [rstrip, List.reverse_eq_nil_iff, List.dropWhile_eq_nil_iff]
  constructor
  · intro h c hc
    exact h c (List.mem_reverse.2 hc)
  · intro h c hc
    exact h c (List.mem_reverse.1 hc)

theorem rstrip_prefix_self (l : PyStr) : rstrip l <+: l := by
  have h := List.dropWhile_suffix (l := l.reverse) isPySpace
  have h2 := List.reverse_prefix.2 h
  simpa [rstrip] using h2

theorem mem_rstrip {l : PyStr} {c : Char} (h : c ∈ rstrip l) : c ∈ l :=
  (rstrip_prefix_self l).sublist.mem h

theorem rstrip_getLast? {l : PyStr} (h : rstrip l ≠ []) :
    ∃ c, (rstrip l).getLast? = some c ∧ isPySpace c = false := by
  have hd : l.reverse.dropWhile isPySpace ≠ [] := by
    intro hnil
    exact h (by simp [rstrip, hnil])
  refine ⟨(l.reverse.dropWhile isPySpace).head hd, ?_, ?_⟩
  · rw [rstrip, List.getLast?_reverse]
    exact List.head?_eq_head hd
  · exact List.head_dropWhile_not isPySpace l.reverse hd

theorem rstrip_eq_self_of_last {l : PyStr} {c : Char} (hc : l.getLast? = some c)
    (hs : isPySpace c = false) : rstrip l = l := by
  have hrev : l.reverse.head? = some c := by rw [List.head?_reverse, hc]
  cases hl : l.reverse with
  | nil => simp [hl] at hrev
  | cons d t =>
    rw [hl] at hrev
    have hd : d = c := by simpa using hrev
    subst hd
    rw [rstrip, hl, List.dropWhile_cons, if_neg (by simp [hs]), ← hl,
      List.reverse_reverse]

theorem rstrip_idem (l : PyStr) : rstrip (rstrip l) = rstrip l := by
  by_cases h : rstrip l = []
  · rw [h]; rfl
  · obtain ⟨c, hc, hs⟩ := rstrip_getLast? h
    exact rstrip_eq_self_of_last hc hs

theorem rstrip_head? {l : PyStr} (h : rstrip l ≠ []) : (rstrip l).head? = l.head? := by
  obtain ⟨t, ht⟩ := rstrip_prefix_self l
  conv_rhs => rw [← ht]
  rw [List.head?_append]
  cases hh : (rstrip l).head? with
  | none => exact absurd (List.head?_eq_none_iff.1 hh) h
  | some c => rfl

theorem lstrip_head? {l : PyStr} (h : lstrip l ≠ []) :
    ∃ c, (lstrip l).head? = some c ∧ isPySpace c = false := by
  refine ⟨(l.dropWhile isPySpace).head h, List.head?_eq_head h, ?_⟩
  exact List.head_dropWhile_not isPySpace l h

theorem lstrip_eq_self_of_head {l : PyStr} {c : Char} (hc : l.head? = some c)
    (hs : isPySpace c = false) : lstrip l = l := by
  cases l with
  | nil => rfl
  | cons d t =>
    have hd : d = c := by simpa using hc
    subst hd
    rw [lstrip, List.dropWhile_cons, if_neg (by simp [hs])]

theorem pyStrip_eq_self {l : PyStr} {c d : Char} (hc : l.head? = some c)
    (hs : isPySpace c = false) (hd : l.getLast? = some d)
    (hds : isPySpace d = false) : pyStrip l = l := by
  rw [pyStrip, lstrip_eq_self_of_head hc hs, rstrip_eq_self_of_last hd hds]

theorem pyStrip_head? {l : PyStr} (h : pyStrip l ≠ []) :
    ∃ c, (pyStrip l).head? = some c ∧ isPySpace c = false := by
  have hl : lstrip l ≠ [] := by
    intro hnil
    exact h (by simp [pyStrip, hnil, rstrip])
  obtain ⟨c, hc, hs⟩ := lstrip_head? hl
  refine ⟨c, ?_, hs⟩
  rw [pyStrip, rstrip_head? (by simpa [pyStrip] using h), hc]

theorem pyStrip_getLast? {l : PyStr} (h : pyStrip l ≠ []) :
    ∃ c, (pyStrip l).getLast? = some c ∧ isPySpace c = false :=
  rstrip_getLast? (by simpa [pyStrip] using h)

/-! ## Lemmas: splitlines -/

theorem splitlines_crlf (t : PyStr) : splitlines ('\r' :: '\n' :: t) = [] :: splitlines t :=
  rfl

theorem splitlines_cr {t : PyStr} (ht : ∀ t1, t ≠ '\n' :: t1) :
    splitlines ('\r' :: t) = [] :: splitlines t := by
  rw [splitlines.eq_3 t (fun t1 h => absurd h (ht t1))]

theorem splitlines_boundary {c : Char} (t : PyStr) (hb : isLineBoundary c = true)
    (hc : c ≠ '\r') : splitlines (c :: t) = [] :: splitlines t := by
  rw [splitlines.eq_4 c t (fun _ hcr _ => hc hcr) (fun hcr => hc hcr), if_pos hb]

theorem not_cr_of_not_boundary {c : Char} (hb : isLineBoundary c = false) : c ≠ '\r' := by
  intro hcr
  subst hcr
  exact absurd hb (by decide)

theorem splitlines_char_nil {c : Char} {t : PyStr} (hb : isLineBoundary c = false)
    (h : splitlines t = []) : splitlines (c :: t) = [[c]] := by
  have hc := not_cr_of_not_boundary hb
  rw [splitlines.eq_4 c t (fun _ hcr _ => hc hcr) (fun hcr => hc hcr),
    if_neg (by simp [hb]), h]

theorem splitlines_char_cons {c : Char} {t : PyStr} {l : PyStr} {ls : List PyStr}
    (hb : isLineBoundary c = false) (h : splitlines t = l :: ls) :
    splitlines (c :: t) = (c :: l) :: ls := by
  have hc := not_cr_of_not_boundary hb
  rw [splitlines.eq_4 c t (fun _ hcr _ => hc hcr) (fun hcr => hc hcr),
    if_neg (by simp [hb]), h]

theorem splitlines_nil : splitlines [] = [] := rfl

theorem splitlines_eq_nil_iff {s : PyStr} : splitlines s = [] ↔ s = [] := by
  induction s using splitlines.induct with
  | case1 => simp [splitlines_nil]
  | case2 t ih => rw [splitlines_crlf]; simp
  | case3 t hcr ih => rw [splitlines_cr (fun t1 h => hcr t1 h)]; simp
  | case4 c t h1 h2 hb ih =>
    rw [splitlines_boundary t hb (fun hcr => h2 hcr)]; simp
  | case5 c t h1 h2 hb hsl ih =>
    rw [splitlines_char_nil (by simpa using hb) hsl]; simp
  | case6 c t h1 h2 hb l ls hsl ih =>
    rw [splitlines_char_cons (by simpa using hb) hsl]; simp

theorem splitlines_mem_no_boundary {s : PyStr} :
    ∀ l ∈ splitlines s, ∀ c ∈ l, isLineBoundary c = false := by
  induction s using splitlines.induct with
  | case1 => simp [splitlines_nil]
  | case2 t ih =>
    rw [splitlines_crlf]
    intro l hl
    rcases List.mem_cons.1 hl with rfl | hl
    · simp
    · exact ih l hl
  | case3 t hcr ih =>
    rw [splitlines_cr (fun t1 h => hcr t1 h)]
    intro l hl
    rcases List.mem_cons.1 hl with rfl | hl
    · simp
    · exact ih l hl
  | case4 c t h1 h2 hb ih =>
    rw [splitlines_boundary t hb (fun hcr => h2 hcr)]
    intro l hl
    rcases List.mem_cons.1 hl with rfl | hl
    · simp
    · exact ih l hl
  | case5 c t h1 h2 hb hsl ih =>
    rw [splitlines_char_nil (by simpa using hb) hsl]
    intro l hl x hx
    rcases List.mem_singleton.1 hl with rfl
    rcases List.mem_singleton.1 hx with rfl
    simpa using hb
  | case6 c t h1 h2 hb l ls hsl ih =>
    rw [splitlines_char_cons (by simpa using hb) hsl]
    intro l' hl' x hx
    rcases List.mem_cons.1 hl' with rfl | hl'
    · rcases List.mem_cons.1 hx with rfl | hx
      · simpa using hb
      · exact ih l (by rw [hsl]; exact List.mem_cons_self _ _) x hx
    · exact ih l' (by rw [hsl]; exact List.mem_cons_of_mem _ hl') x hx

theorem splitlines_append_nl {l : PyStr} (s : PyStr)
    (hl : ∀ c ∈ l, isLineBoundary c = false) :
    splitlines (l ++ '\n' :: s) = l :: splitlines s := by
  induction l with
  | nil => exact splitlines_boundary s (by decide) (by decide)
  | cons c l' ih =>
    have hb : isLineBoundary c = false := hl c (List.mem_cons_self _ _)
    have ih' := ih (fun x hx => hl x (List.mem_cons_of_mem _ hx))
    exact splitlines_char_cons hb ih'

theorem splitlines_no_boundary {l : PyStr} (hne : l ≠ [])
    (hl : ∀ c ∈ l, isLineBoundary c = false) : splitlines l = [l] := by
  induction l with
  | nil => exact absurd rfl hne
  | cons c l' ih =>
    have hb : isLineBoundary c = false := hl c (List.mem_cons_self _ _)
    cases hl' : l' with
    | nil => exact splitlines_char_nil hb rfl
    | cons d t =>
      have ihr := ih (by simp [hl']) (fun x hx => hl x (List.mem_cons_of_mem _ hx))
      rw [hl'] at ihr
      exact splitlines_char_cons hb ihr

theorem getLast?_cons_of_ne_nil {α : Type} (a : α) {l : List α} (h : l ≠ []) :
    (a :: l).getLast? = l.getLast? := by
  cases l with
  | nil => exact absurd rfl h
  | cons b t => simp [List.getLast?_cons_cons]

theorem splitlines_getLast? {s : PyStr} {d : Char} :
    s.getLast? = some d → isPySpace d = false →
    ∃ ll, (splitlines s).getLast? = some ll ∧ ll ≠ [] ∧ ll.getLast? = some d := by
  induction s using splitlines.induct with
  | case1 => intro hd _; simp at hd
  | case2 t ih =>
    intro hd hds
    cases t with
    | nil =>
      have : d = '\n' := by simpa using hd.symm
      subst this
      exact absurd hds (by decide)
    | cons a t' =>
      obtain ⟨ll, h1, h2, h3⟩ := ih (by simpa [List.getLast?_cons_cons] using hd) hds
      have hne : splitlines (a :: t') ≠ [] := by
        intro hnil
        rw [hnil] at h1
        simp at h1
      rw [splitlines_crlf, getLast?_cons_of_ne_nil _ hne]
      exact ⟨ll, h1, h2, h3⟩
  | case3 t hcr ih =>
    intro hd hds
    cases t with
    | nil =>
      have : d = '\r' := by simpa using hd.symm
      subst this
      exact absurd hds (by decide)
    | cons a t' =>
      obtain ⟨ll, h1, h2, h3⟩ := ih (by simpa [List.getLast?_cons_cons] using hd) hds
      have hne : splitlines (a :: t') ≠ [] := by
        intro hnil
        rw [hnil] at h1
        simp at h1
      rw [splitlines_cr (fun t1 h => hcr t1 h), getLast?_cons_of_ne_nil _ hne]
      exact ⟨ll, h1, h2, h3⟩
  | case4 c t h1 h2 hb ih =>
    intro hd hds
    cases t with
    | nil =>
      have : d = c := by simpa using hd.symm
      subst this
      exact absurd (isPySpace_of_isLineBoundary hb) (by simp [hds])
    | cons a t' =>
      obtain ⟨ll, hl1, hl2, hl3⟩ := ih (by simpa [List.getLast?_cons_cons] using hd) hds
      have hne : splitlines (a :: t') ≠ [] := by
        intro hnil
        rw [hnil] at hl1
        simp at hl1
      rw [splitlines_boundary _ hb (fun hcr => h2 hcr), getLast?_cons_of_ne_nil _ hne]
      exact ⟨ll, hl1, hl2, hl3⟩
  | case5 c t hc1 hc2 hb hsl ih =>
    intro hd hds
    have ht : t = [] := splitlines_eq_nil_iff.1 hsl
    subst ht
    have : d = c := by simpa using hd.symm
    subst this
    rw [splitlines_char_nil (by simpa using hb) hsl]
    exact ⟨[d], rfl, by simp, rfl⟩
  | case6 c t hc1 hc2 hb l ls hsl ih =>
    intro hd hds
    cases t with
    | nil => rw [splitlines_nil] at hsl; exact absurd hsl (by simp)
    | cons a t' =>
      obtain ⟨ll, hl1, hl2, hl3⟩ := ih (by simpa [List.getLast?_cons_cons] using hd) hds
      rw [splitlines_char_cons (by simpa using hb) hsl]
      rw [hsl] at hl1
      cases ls with
      | nil =>
        have heq : l = ll := by simpa using hl1
        rw [← heq] at hl2 hl3
        refine ⟨c :: l, by simp, by simp, ?_⟩
        rw [getLast?_cons_of_ne_nil _ hl2]
        exact hl3
      | cons m ms =>
        rw [List.getLast?_cons_cons] at hl1
        exact ⟨ll, by rw [List.getLast?_cons_cons]; exact hl1, hl2, hl3⟩

theorem infix_cons_extend {h : PyStr} {c : Char} {l : PyStr} (hin : h <:+: l) :
    h <:+: c :: l := by
  obtain ⟨u, v, rfl⟩ := hin
  exact ⟨c :: u, v, rfl⟩

theorem not_prefix_of_boundary_head {h : PyStr} {c : Char} {t : PyStr} (hne : h ≠ [])
    (hbf : ∀ x ∈ h, isLineBoundary x = false) (hb : isLineBoundary c = true) :
    ¬(h <+: c :: t) := by
  intro hp
  cases h with
  | nil => exact hne rfl
  | cons d h' =>
    have := (List.cons_prefix_cons.1 hp).1
    subst this
    exact absurd (hbf d (List.mem_cons_self _ _)) (by simp [hb])

theorem prefix_splitlines {h : PyStr} (hne : h ≠ [])
    (hbf : ∀ c ∈ h, isLineBoundary c = false) :
    ∀ {s : PyStr}, h <+: s → ∃ l ls, splitlines s = l :: ls ∧ h <+: l := by
  induction h with
  | nil => exact absurd rfl hne
  | cons c h' ih =>
    intro s hp
    cases s with
    | nil => simp at hp
    | cons a t =>
      obtain ⟨hca, hp'⟩ := List.cons_prefix_cons.1 hp
      subst hca
      have hb : isLineBoundary c = false := hbf c (List.mem_cons_self _ _)
      by_cases hh : h' = []
      · subst hh
        cases hsl : splitlines t with
        | nil => exact ⟨[c], [], splitlines_char_nil hb hsl, by simp⟩
        | cons l0 ls0 =>
          exact ⟨c :: l0, ls0, splitlines_char_cons hb hsl, by simp⟩
      · obtain ⟨l0, ls0, hsl, hpl⟩ :=
          ih hh (fun x hx => hbf x (List.mem_cons_of_mem _ hx)) hp'
        exact ⟨c :: l0, ls0, splitlines_char_cons hb hsl,
          List.cons_prefix_cons.2 ⟨rfl, hpl⟩⟩

theorem infix_splitlines {h : PyStr} (hne : h ≠ [])
    (hbf : ∀ c ∈ h, isLineBoundary c = false) :
    ∀ {s : PyStr}, h <:+: s → ∃ l ∈ splitlines s, h <:+: l := by
  have hpre : ∀ {s : PyStr}, h <+: s → ∃ l ∈ splitlines s, h <:+: l := by
    intro s hp
    obtain ⟨l, ls, hsl, hpl⟩ := prefix_splitlines hne hbf hp
    exact ⟨l, by rw [hsl]; exact List.mem_cons_self _ _, hpl.isInfix⟩
  intro s
  induction s using splitlines.induct with
  | case1 =>
    intro hin
    obtain ⟨u, v, huv⟩ := hin
    rcases List.append_eq_nil.1 huv with ⟨huh, -⟩
    exact absurd (List.append_eq_nil.1 huh).2 hne
  | case2 t ih =>
    intro hin
    rcases List.infix_cons_iff.1 hin with hp | hin'
    · exact absurd hp (not_prefix_of_boundary_head hne hbf (by decide))
    · rcases List.infix_cons_iff.1 hin' with hp | hin''
      · exact absurd hp (not_prefix_of_boundary_head hne hbf (by decide))
      · obtain ⟨l, hl, hinl⟩ := ih hin''
        exact ⟨l, by rw [splitlines_crlf]; exact List.mem_cons_of_mem _ hl, hinl⟩
  | case3 t hcr ih =>
    intro hin
    rcases List.infix_cons_iff.1 hin with hp | hin'
    · exact absurd hp (not_prefix_of_boundary_head hne hbf (by decide))
    · obtain ⟨l, hl, hinl⟩ := ih hin'
      refine ⟨l, ?_, hinl⟩
      rw [splitlines_cr (fun t1 ht => hcr t1 ht)]
      exact List.mem_cons_of_mem _ hl
  | case4 c t h1 h2 hb ih =>
    intro hin
    rcases List.infix_cons_iff.1 hin with hp | hin'
    · exact absurd hp (not_prefix_of_boundary_head hne hbf hb)
    · obtain ⟨l, hl, hinl⟩ := ih hin'
      refine ⟨l, ?_, hinl⟩
      rw [splitlines_boundary t hb (fun hcr => h2 hcr)]
      exact List.mem_cons_of_mem _ hl
  | case5 c t hc1 hc2 hb hsl ih =>
    intro hin
    rcases List.infix_cons_iff.1 hin with hp | hin'
    · exact hpre hp
    · have ht : t = [] := splitlines_eq_nil_iff.1 hsl
      subst ht
      obtain ⟨u, v, huv⟩ := hin'
      rcases List.append_eq_nil.1 huv with ⟨huh, -⟩
      exact absurd (List.append_eq_nil.1 huh).2 hne
  | case6 c t hc1 hc2 hb l ls hsl ih =>
    intro hin
    rcases List.infix_cons_iff.1 hin with hp | hin'
    · exact hpre hp
    · obtain ⟨l', hl', hinl'⟩ := ih hin'
      rw [hsl] at hl'
      rw [splitlines_char_cons (by simpa using hb) hsl]
      rcases List.mem_cons.1 hl' with rfl | hl'
      · exact ⟨c :: l', List.mem_cons_self _ _, infix_cons_extend hinl'⟩
      · exact ⟨l', List.mem_cons_of_mem _ hl', hinl'⟩

/-! ## Lemmas: blank-line collapsing -/

theorem collapseBlanks_cons_ne {l : PyStr} (ls : List PyStr) (hl : l ≠ []) (b : Bool) :
    collapseBlanks b (l :: ls) = l :: collapseBlanks false ls := by
  simp [collapseBlanks, hl]

theorem collapseBlanks_cons_blank_true (ls : List PyStr) :
    collapseBlanks true ([] :: ls) = collapseBlanks true ls := by
  simp [collapseBlanks]

theorem collapseBlanks_cons_blank_false (ls : List PyStr) :
    collapseBlanks false ([] :: ls) = [] :: collapseBlanks true ls := by
  simp [collapseBlanks]

theorem collapseBlanks_mem {ls : List PyStr} {x : PyStr} :
    ∀ {b : Bool}, x ∈ collapseBlanks b ls → x = [] ∨ x ∈ ls := by
  induction ls with
  | nil => intro b h; simp [collapseBlanks] at h
  | cons l ls ih =>
    intro b h
    by_cases hl : l = []
    · subst hl
      cases b with
      | true =>
        rw [collapseBlanks_cons_blank_true] at h
        rcases ih h with h | h
        · exact Or.inl h
        · exact Or.inr (List.mem_cons_of_mem _ h)
      | false =>
        rw [collapseBlanks_cons_blank_false] at h
        rcases List.mem_cons.1 h with rfl | h
        · exact Or.inl rfl
        · rcases ih h with h | h
          · exact Or.inl h
          · exact Or.inr (List.mem_cons_of_mem _ h)
    · rw [collapseBlanks_cons_ne ls hl b] at h
      rcases List.mem_cons.1 h with rfl | h
      · exact Or.inr (List.mem_cons_self _ _)
      · rcases ih h with h | h
        · exact Or.inl h
        · exact Or.inr (List.mem_cons_of_mem _ h)

theorem mem_collapseBlanks {ls : List PyStr} {x : PyStr} (hne : x ≠ []) :
    ∀ {b : Bool}, x ∈ ls → x ∈ collapseBlanks b ls := by
  induction ls with
  | nil => intro b h; simp at h
  | cons l ls ih =>
    intro b h
    by_cases hl : l = []
    · subst hl
      have hx : x ∈ ls := by
        rcases List.mem_cons.1 h with rfl | h
        · exact absurd rfl hne
        · exact h
      cases b with
      | true => rw [collapseBlanks_cons_blank_true]; exact ih hx
      | false =>
        rw [collapseBlanks_cons_blank_false]
        exact List.mem_cons_of_mem _ (ih hx)
    · rw [collapseBlanks_cons_ne ls hl b]
      rcases List.mem_cons.1 h with rfl | h
      · exact List.mem_cons_self _ _
      · exact List.mem_cons_of_mem _ (ih h)

theorem collapseBlanks_head_true {ls : List PyStr} :
    ∀ m ∈ (collapseBlanks true ls).head?, m ≠ [] := by
  induction ls with
  | nil => simp [collapseBlanks]
  | cons l ls ih =>
    by_cases hl : l = []
    · subst hl
      rw [collapseBlanks_cons_blank_true]
      exact ih
    · rw [collapseBlanks_cons_ne ls hl true]
      intro m hm
      have hlm : l = m := by simpa using hm
      exact hlm ▸ hl

theorem collapseBlanks_chain (ls : List PyStr) :
    ∀ b, (collapseBlanks b ls).Chain' (fun a b2 => a = [] → b2 ≠ []) := by
  induction ls with
  | nil => intro b; simp [collapseBlanks]
  | cons l ls ih =>
    intro b
    by_cases hl : l = []
    · subst hl
      cases b with
      | true => rw [collapseBlanks_cons_blank_true]; exact ih true
      | false =>
        rw [collapseBlanks_cons_blank_false]
        exact List.chain'_cons'.2 ⟨fun m hm _ => collapseBlanks_head_true m hm, ih true⟩
    · rw [collapseBlanks_cons_ne ls hl b]
      exact List.chain'_cons'.2 ⟨fun m hm h => absurd h hl, ih false⟩

theorem collapseBlanks_eq_self {ls : List PyStr}
    (hc : ls.Chain' (fun a b2 => a = [] → b2 ≠ [])) :
    ∀ b, (b = true → ∀ m ∈ ls.head?, m ≠ []) → collapseBlanks b ls = ls := by
  induction ls with
  | nil => intro b _; rfl
  | cons l ls ih =>
    intro b hb
    rcases List.chain'_cons'.1 hc with ⟨hhd, hc'⟩
    by_cases hl : l = []
    · subst hl
      cases b with
      | true => exact absurd rfl (hb rfl [] rfl)
      | false =>
        rw [collapseBlanks_cons_blank_false, ih hc' true (fun _ m hm => hhd m hm rfl)]
    · rw [collapseBlanks_cons_ne ls hl b, ih hc' false (by simp)]

theorem collapseBlanks_getLast? {ls : List PyStr} {m : PyStr} (hne : m ≠ []) :
    ∀ b, ls.getLast? = some m → (collapseBlanks b ls).getLast? = some m := by
  induction ls with
  | nil => intro b h; simp at h
  | cons l ls ih =>
    intro b hm
    cases ls with
    | nil =>
      have hlm : l = m := by simpa using hm
      subst hlm
      rw [collapseBlanks_cons_ne [] hne b]
      rfl
    | cons a t =>
      have hm' : (a :: t).getLast? = some m := by
        rw [← List.getLast?_cons_cons (a := l)]
        exact hm
      have htail := ih true hm'
      have htail' := ih false hm'
      have hnetail : ∀ b2, collapseBlanks b2 (a :: t) ≠ [] := by
        intro b2 hnil
        have hcur := ih b2 hm'
        rw [hnil] at hcur
        simp at hcur
      by_cases hl : l = []
      · subst hl
        cases b with
        | true =>
          rw [collapseBlanks_cons_blank_true]
          exact htail
        | false =>
          rw [collapseBlanks_cons_blank_false,
            getLast?_cons_of_ne_nil _ (hnetail true)]
          exact htail
      · rw [collapseBlanks_cons_ne _ hl b, getLast?_cons_of_ne_nil _ (hnetail false)]
        exact htail'

/-! ## Lemmas: joining with newlines -/

theorem pyJoin_cons_cons (sep a b : PyStr) (t : List PyStr) :
    pyJoin sep (a :: b :: t) = a ++ sep ++ pyJoin sep (b :: t) := rfl

theorem pyJoin_head? {C : List PyStr} {l : PyStr} (hC : C.head? = some l)
    (hl : l ≠ []) : (pyJoin ['\n'] C).head? = l.head? := by
  cases C with
  | nil => simp at hC
  | cons a t =>
    have hal : a = l := by simpa using hC
    subst hal
    cases t with
    | nil => rfl
    | cons b t' =>
      rw [pyJoin_cons_cons, List.append_assoc, List.head?_append]
      cases hh : a.head? with
      | none => exact absurd (List.head?_eq_none_iff.1 hh) hl
      | some c => rfl

theorem pyJoin_getLast? {C : List PyStr} {m : PyStr} (hne : m ≠ []) :
    C.getLast? = some m → (pyJoin ['\n'] C).getLast? = m.getLast? := by
  induction C with
  | nil => intro h; simp at h
  | cons a t ih =>
    intro hm
    cases t with
    | nil =>
      have ham : a = m := by simpa using hm
      subst ham
      rfl
    | cons b t' =>
      have hm' : (b :: t').getLast? = some m := by
        rw [← List.getLast?_cons_cons (a := a)]
        exact hm
      have ihr := ih hm'
      have hjoin_ne : pyJoin ['\n'] (b :: t') ≠ [] := by
        intro hnil
        rw [hnil] at ihr
        obtain ⟨c, hc⟩ : ∃ c, m.getLast? = some c := by
          cases hmm : m with
          | nil => exact absurd hmm hne
          | cons x xs => exact ⟨(x :: xs).getLast (by simp), List.getLast?_eq_getLast _ _⟩
        rw [hc] at ihr
        simp at ihr
      rw [pyJoin_cons_cons, List.append_assoc,
        List.getLast?_append_of_ne_nil _ (by simp),
        List.getLast?_append_of_ne_nil _ hjoin_ne]
      exact ihr

theorem infix_pyJoin {C : List PyStr} {x : PyStr} (hx : x ∈ C) :
    x <:+: pyJoin ['\n'] C := by
  induction C with
  | nil => simp at hx
  | cons a t ih =>
    rcases List.mem_cons.1 hx with rfl | hx
    · cases t with
      | nil => exact List.infix_refl x
      | cons b t' =>
        rw [pyJoin_cons_cons, List.append_assoc]
        exact ⟨[], ['\n'] ++ pyJoin ['\n'] (b :: t'), by simp⟩
    · have hxt := ih hx
      cases t with
      | nil => simp at hx
      | cons b t' =>
        rw [pyJoin_cons_cons, List.append_assoc]
        exact infix_append_of_right a (infix_append_of_right ['\n'] hxt)

theorem splitlines_pyJoin {C : List PyStr}
    (hbf : ∀ l ∈ C, ∀ c ∈ l, isLineBoundary c = false) {m : PyStr}
    (hm : C.getLast? = some m) (hne : m ≠ []) :
    splitlines (pyJoin ['\n'] C) = C := by
  induction C with
  | nil => simp at hm
  | cons a t ih =>
    cases t with
    | nil =>
      have ham : a = m := by simpa using hm
      subst ham
      show splitlines a = [a]
      exact splitlines_no_boundary hne (hbf a (List.mem_cons_self _ _))
    | cons b t' =>
      have hm' : (b :: t').getLast? = some m := by
        rw [← List.getLast?_cons_cons (a := a)]
        exact hm
      have ihr := ih (fun l hl => hbf l (List.mem_cons_of_mem _ hl)) hm'
      rw [pyJoin_cons_cons]
      have hsh : a ++ ['\n'] ++ pyJoin ['\n'] (b :: t') =
          a ++ '\n' :: pyJoin ['\n'] (b :: t') := by simp
      rw [hsh, splitlines_append_nl _ (hbf a (List.mem_cons_self _ _)), ihr]

/-! ## Lemmas: header insertion -/

theorem pyContains_iff {sub s : PyStr} : pyContains sub s = true ↔ sub <:+: s := by
  simp [pyContains]

theorem foldl_insert_infix_mono {x t : PyStr} (hx : x <:+: t) (hs : List PyStr) :
    x <:+: hs.foldl (fun t2 h => if pyContains h t2 then t2 else h ++ '\n' :: t2) t := by
  induction hs generalizing t with
  | nil => exact hx
  | cons h1 hs ih =>
    rw [List.foldl_cons]
    apply ih
    by_cases hc : pyContains h1 t
    · rw [if_pos hc]; exact hx
    · rw [if_neg hc]
      have : h1 ++ '\n' :: t = (h1 ++ ['\n']) ++ t := by simp
      rw [this]
      exact infix_append_of_right _ hx

theorem foldl_insert_infix {hs : List PyStr} {x : PyStr} (hx : x ∈ hs) (t : PyStr) :
    x <:+: hs.foldl (fun t2 h => if pyContains h t2 then t2 else h ++ '\n' :: t2) t := by
  induction hs generalizing t with
  | nil => simp at hx
  | cons h1 hs ih =>
    rw [List.foldl_cons]
    rcases List.mem_cons.1 hx with rfl | hx'
    · apply foldl_insert_infix_mono ?_ hs
      by_cases hc : pyContains x t
      · rw [if_pos hc]; exact pyContains_iff.1 hc
      · rw [if_neg hc]
        exact ⟨[], '\n' :: t, by simp⟩
    · exact ih hx' _

theorem insertHeaders_mem_infix {x : PyStr} (hx : x ∈ canonicalHeaders) (t : PyStr) :
    x <:+: insertHeaders t :=
  foldl_insert_infix hx t

theorem insertHeaders_eq_self {t : PyStr}
    (h : ∀ x ∈ canonicalHeaders, pyContains x t = true) : insertHeaders t = t := by
  rw [insertHeaders]
  generalize hhs : canonicalHeaders = hs at h
  clear hhs
  induction hs with
  | nil => rfl
  | cons h1 hs ih =>
    rw [List.foldl_cons, if_pos (h h1 (List.mem_cons_self _ _))]
    exact ih (fun x hx => h x (List.mem_cons_of_mem _ hx))

theorem foldl_insert_head? {hs : List PyStr}
    (hhs : ∀ x ∈ hs, ∃ c, x.head? = some c ∧ isPySpace c = false) :
    ∀ {t : PyStr}, (t ≠ [] → ∃ c, t.head? = some c ∧ isPySpace c = false) →
    (hs.foldl (fun t2 h => if pyContains h t2 then t2 else h ++ '\n' :: t2) t ≠ [] →
      ∃ c, (hs.foldl (fun t2 h => if pyContains h t2 then t2 else h ++ '\n' :: t2) t).head? =
        some c ∧ isPySpace c = false) := by
  induction hs with
  | nil => intro t ht; exact ht
  | cons h1 hs ih =>
    intro t ht
    rw [List.foldl_cons]
    apply ih (fun x hx => hhs x (List.mem_cons_of_mem _ hx))
    intro hne
    by_cases hc : pyContains h1 t
    · rw [if_pos hc] at hne ⊢
      exact ht hne
    · rw [if_neg hc]
      obtain ⟨c, hc1, hc2⟩ := hhs h1 (List.mem_cons_self _ _)
      refine ⟨c, ?_, hc2⟩
      rw [List.head?_append, hc1]
      rfl

theorem foldl_insert_getLast? (hs : List PyStr) :
    ∀ {t : PyStr}, t ≠ [] →
    (hs.foldl (fun t2 h => if pyContains h t2 then t2 else h ++ '\n' :: t2) t).getLast? =
      t.getLast? ∧
    hs.foldl (fun t2 h => if pyContains h t2 then t2 else h ++ '\n' :: t2) t ≠ [] := by
  induction hs with
  | nil => intro t ht; exact ⟨rfl, ht⟩
  | cons h1 hs ih =>
    intro t ht
    rw [List.foldl_cons]
    by_cases hc : pyContains h1 t
    · rw [if_pos hc]
      exact ih ht
    · rw [if_neg hc]
      have hne : h1 ++ '\n' :: t ≠ [] := by simp
      obtain ⟨h1l, h2l⟩ := ih hne
      refine ⟨?_, h2l⟩
      rw [h1l, List.getLast?_append_of_ne_nil _ (by simp), getLast?_cons_of_ne_nil _ ht]

/-! ## Lemmas: rstrip preserves whitespace-free substrings -/

theorem rstrip_infix {h l : PyStr} (hne : h ≠ [])
    (hws : ∀ c ∈ h, isPySpace c = false) (hin : h <:+: l) : h <:+: rstrip l := by
  obtain ⟨u, v, rfl⟩ := hin
  rcases List.eq_nil_or_concat h with rfl | ⟨h2, c, rfl⟩
  · exact absurd rfl hne
  · have hcs : isPySpace c = false := hws c (by simp)
    have key : ((u ++ h2.concat c) ++ v).reverse.dropWhile isPySpace =
        v.reverse.dropWhile isPySpace ++ c :: (h2.reverse ++ u.reverse) := by
      have hshape : ((u ++ h2.concat c) ++ v).reverse =
          v.reverse ++ c :: (h2.reverse ++ u.reverse) := by
        simp [List.reverse_append, List.append_assoc]
      rw [hshape, dropWhile_append_cons _ _ _ _ hcs]
    refine ⟨u, (v.reverse.dropWhile isPySpace).reverse, ?_⟩
    rw [rstrip, key]
    simp [List.reverse_append, List.append_assoc]

/-! ## Assembling the editor characterization -/

theorem ne_nil_of_infix {h s : PyStr} (hne : h ≠ []) (hin : h <:+: s) : s ≠ [] := by
  obtain ⟨u, v, huv⟩ := hin
  intro hnil
  rw [hnil] at huv
  rcases List.append_eq_nil.1 huv with ⟨huh, -⟩
  exact hne (List.append_eq_nil.1 huh).2

theorem head?_not_space_of {x : PyStr} (hne : x ≠ [])
    (hws : ∀ c ∈ x, isPySpace c = false) :
    ∃ c, x.head? = some c ∧ isPySpace c = false := by
  cases x with
  | nil => exact absurd rfl hne
  | cons c t => exact ⟨c, rfl, hws c (List.mem_cons_self _ _)⟩

theorem splitlines_head {c : Char} (t : PyStr) (hb : isLineBoundary c = false) :
    ∃ l0 ls0, splitlines (c :: t) = (c :: l0) :: ls0 := by
  cases hsl : splitlines t with
  | nil => exact ⟨[], [], splitlines_char_nil hb hsl⟩
  | cons l ls => exact ⟨l, ls, splitlines_char_cons hb hsl⟩

theorem canonicalHeaders_facts :
    ∀ x ∈ canonicalHeaders, x ≠ [] ∧ (∀ c ∈ x, isPySpace c = false) ∧
      (∀ c ∈ x, isLineBoundary c = false) := by decide

theorem map_rstrip_eq_self {l : List PyStr} (h : ∀ x ∈ l, rstrip x = x) :
    l.map rstrip = l := by
  induction l with
  | nil => rfl
  | cons a t ih =>
    rw [List.map_cons, h a (List.mem_cons_self _ _),
      ih (fun x hx => h x (List.mem_cons_of_mem _ hx))]

theorem getLast?_map_list {α β : Type} (f : α → β) (l : List α) :
    (l.map f).getLast? = l.getLast?.map f := by
  induction l with
  | nil => rfl
  | cons a t ih =>
    cases t with
    | nil => rfl
    | cons b t' =>
      rw [List.map_cons, List.map_cons, List.getLast?_cons_cons,
        List.getLast?_cons_cons, ← List.map_cons]
      exact ih

theorem not_boundary_of_not_space {c : Char} (h : isPySpace c = false) :
    isLineBoundary c = false := by
  by_cases hb : isLineBoundary c = true
  · exact absurd (isPySpace_of_isLineBoundary hb) (by simp [h])
  · simpa using hb

set_option maxRecDepth 4000 in
set_option maxHeartbeats 2000000 in
/-- The single-pass normal form of the editor: its output is the
newline-join of a list of lines that are rstrip-fixed, line-boundary-free
and without adjacent blanks, it splits back into exactly those lines, it
contains every canonical header, and a second strip or header-insertion
pass leaves it unchanged. -/
theorem editor_core (pt : PyStr) :
    ∃ C : List PyStr,
      EditorAgent.run pt = pyJoin ['\n'] C ∧
      splitlines (EditorAgent.run pt) = C ∧
      (∀ l ∈ C, rstrip l = l) ∧
      (∀ l ∈ C, ∀ c ∈ l, isLineBoundary c = false) ∧
      C.Chain' (fun a b => a = [] → b ≠ []) ∧
      (∀ x ∈ canonicalHeaders, x <:+: EditorAgent.run pt) ∧
      pyStrip (EditorAgent.run pt) = EditorAgent.run pt ∧
      insertHeaders (EditorAgent.run pt) = EditorAgent.run pt := by
  have habs : ("Abstract:").data <:+: insertHeaders (pyStrip pt) :=
    insertHeaders_mem_infix (by decide) _
  have hTne : insertHeaders (pyStrip pt) ≠ [] := ne_nil_of_infix (by decide) habs
  have hThead : ∃ c, (insertHeaders (pyStrip pt)).head? = some c ∧ isPySpace c = false := by
    refine foldl_insert_head? ?_ (fun h => pyStrip_head? h) hTne
    intro x hx
    exact head?_not_space_of (canonicalHeaders_facts x hx).1 (canonicalHeaders_facts x hx).2.1
  have hTlast : ∃ m, ((splitlines (insertHeaders (pyStrip pt))).map rstrip).getLast? =
      some m ∧ m ≠ [] ∧ rstrip m = m := by
    by_cases hps : pyStrip pt = []
    · rw [hps]
      exact ⟨("Abstract:").data, by decide, by decide, by decide⟩
    · obtain ⟨d, hd1, hd2⟩ := pyStrip_getLast? hps
      obtain ⟨hTl, -⟩ := foldl_insert_getLast? canonicalHeaders (t := pyStrip pt) hps
      have hTlast' : (insertHeaders (pyStrip pt)).getLast? = some d := by
        rw [show (insertHeaders (pyStrip pt)).getLast? =
          (canonicalHeaders.foldl
            (fun t2 h => if pyContains h t2 then t2 else h ++ '\n' :: t2)
            (pyStrip pt)).getLast? from rfl, hTl]
        exact hd1
      obtain ⟨ll, hll1, hll2, hll3⟩ := splitlines_getLast? hTlast' hd2
      have hfix : rstrip ll = ll := rstrip_eq_self_of_last hll3 hd2
      refine ⟨rstrip ll, ?_, ?_, rstrip_idem ll⟩
      · rw [getLast?_map_list, hll1]
        rfl
      · rw [hfix]
        exact hll2
  have hLhead : ∃ hl0, ((splitlines (insertHeaders (pyStrip pt))).map rstrip).head? =
      some hl0 ∧ hl0 ≠ [] ∧ ∃ c, hl0.head? = some c ∧ isPySpace c = false := by
    obtain ⟨c, hc1, hc2⟩ := hThead
    obtain ⟨t, hTt⟩ : ∃ t, insertHeaders (pyStrip pt) = c :: t := by
      cases hT2 : insertHeaders (pyStrip pt) with
      | nil => exact absurd hT2 hTne
      | cons a t =>
        rw [hT2] at hc1
        have hac : a = c := by simpa using hc1
        subst hac
        exact ⟨t, rfl⟩
    have hbc : isLineBoundary c = false := not_boundary_of_not_space hc2
    obtain ⟨l0, ls0, hsl⟩ := splitlines_head t hbc
    rw [hTt, hsl]
    have hrs_ne : rstrip (c :: l0) ≠ [] := by
      intro hnil
      exact absurd (rstrip_eq_nil_iff.1 hnil c (List.mem_cons_self _ _)) (by simp [hc2])
    refine ⟨rstrip (c :: l0), by simp, hrs_ne, c, ?_, hc2⟩
    rw [rstrip_head? hrs_ne]
    rfl
  obtain ⟨m, hm1, hm2, hm3⟩ := hTlast
  obtain ⟨hl0, hh1, hh2, c0, hh3, hh4⟩ := hLhead
  -- facts about the collapsed list
  have hCelem_fix : ∀ l ∈ collapseBlanks false
      ((splitlines (insertHeaders (pyStrip pt))).map rstrip), rstrip l = l := by
    intro l hl
    rcases collapseBlanks_mem hl with rfl | hl
    · rfl
    · obtain ⟨l1, -, rfl⟩ := List.mem_map.1 hl
      exact rstrip_idem l1
  have hCelem_bf : ∀ l ∈ collapseBlanks false
      ((splitlines (insertHeaders (pyStrip pt))).map rstrip),
      ∀ c ∈ l, isLineBoundary c = false := by
    intro l hl c hc
    rcases collapseBlanks_mem hl with rfl | hl
    · simp at hc
    · obtain ⟨l1, hl1, rfl⟩ := List.mem_map.1 hl
      exact splitlines_mem_no_boundary l1 hl1 c (mem_rstrip hc)
  have hCchain := collapseBlanks_chain
    ((splitlines (insertHeaders (pyStrip pt))).map rstrip) false
  have hClast : (collapseBlanks false
      ((splitlines (insertHeaders (pyStrip pt))).map rstrip)).getLast? = some m :=
    collapseBlanks_getLast? hm2 false hm1
  have hChead : (collapseBlanks false
      ((splitlines (insertHeaders (pyStrip pt))).map rstrip)).head? = some hl0 := by
    obtain ⟨L', hL'⟩ : ∃ L', (splitlines (insertHeaders (pyStrip pt))).map rstrip =
        hl0 :: L' := by
      cases hL2 : (splitlines (insertHeaders (pyStrip pt))).map rstrip with
      | nil => rw [hL2] at hh1; simp at hh1
      | cons a t =>
        rw [hL2] at hh1
        have : a = hl0 := by simpa using hh1
        subst this
        exact ⟨t, rfl⟩
    rw [hL', collapseBlanks_cons_ne _ hh2 false]
    rfl
  -- the output
  have hyhead : (EditorAgent.run pt).head? = some c0 := by
    show (pyJoin ['\n'] (collapseBlanks false
      ((splitlines (insertHeaders (pyStrip pt))).map rstrip))).head? = some c0
    rw [pyJoin_head? hChead hh2, hh3]
  have hylast_ex : ∃ d0, (EditorAgent.run pt).getLast? = some d0 ∧ isPySpace d0 = false := by
    obtain ⟨d0, hd01, hd02⟩ := rstrip_getLast? (l := m) (by rw [hm3]; exact hm2)
    rw [hm3] at hd01
    refine ⟨d0, ?_, hd02⟩
    show (pyJoin ['\n'] (collapseBlanks false
      ((splitlines (insertHeaders (pyStrip pt))).map rstrip))).getLast? = some d0
    rw [pyJoin_getLast? hm2 hClast]
    exact hd01
  obtain ⟨d0, hyl1, hyl2⟩ := hylast_ex
  have hsplit : splitlines (EditorAgent.run pt) = collapseBlanks false
      ((splitlines (insertHeaders (pyStrip pt))).map rstrip) := by
    show splitlines (pyJoin ['\n'] (collapseBlanks false
      ((splitlines (insertHeaders (pyStrip pt))).map rstrip))) = _
    exact splitlines_pyJoin hCelem_bf hClast hm2
  have hhdr : ∀ x ∈ canonicalHeaders, x <:+: EditorAgent.run pt := by
    intro x hx
    obtain ⟨hxne, hxws, hxbf⟩ := canonicalHeaders_facts x hx
    have hxT : x <:+: insertHeaders (pyStrip pt) := insertHeaders_mem_infix hx _
    obtain ⟨l1, hl1, hxl1⟩ := infix_splitlines hxne hxbf hxT
    have hxr : x <:+: rstrip l1 := rstrip_infix hxne hxws hxl1
    have hrne : rstrip l1 ≠ [] := ne_nil_of_infix hxne hxr
    have hmemL : rstrip l1 ∈ (splitlines (insertHeaders (pyStrip pt))).map rstrip :=
      List.mem_map_of_mem rstrip hl1
    have hmemC : rstrip l1 ∈ collapseBlanks false
        ((splitlines (insertHeaders (pyStrip pt))).map rstrip) :=
      mem_collapseBlanks hrne hmemL
    exact hxr.trans (infix_pyJoin hmemC)
  have hstrip : pyStrip (EditorAgent.run pt) = EditorAgent.run pt :=
    pyStrip_eq_self hyhead hh4 hyl1 hyl2
  have hins : insertHeaders (EditorAgent.run pt) = EditorAgent.run pt :=
    insertHeaders_eq_self (fun x hx => pyContains_iff.2 (hhdr x hx))
  exact ⟨collapseBlanks false ((splitlines (insertHeaders (pyStrip pt))).map rstrip),
    rfl, hsplit, hCelem_fix, hCelem_bf, hCchain, hhdr, hstrip, hins⟩

/-- C4: the edit stage is idempotent — running `EditorAgent.run` on its own
output returns that output unchanged (headers already present are not
inserted again, and per-line rstripping and blank collapsing are already
maximal after one pass). -/
theorem editor_run_idempotent (pt : PyStr) :
    EditorAgent.run (EditorAgent.run pt) = EditorAgent.run pt := by
  obtain ⟨C, hCdef, hsplit, hfix, hbf, hchain, hhdr, hstrip, hins⟩ := editor_core pt
  show pyJoin ['\n'] (collapseBlanks false
    ((splitlines (insertHeaders (pyStrip (EditorAgent.run pt)))).map rstrip)) =
    EditorAgent.run pt
  rw [hstrip, hins, hsplit, map_rstrip_eq_self hfix,
    collapseBlanks_eq_self hchain false (by simp), ← hCdef]

/-- C8: every edit-stage output contains all seven canonical section
headers, no line of it carries trailing whitespace, and it never has two
consecutive blank lines. -/
theorem editor_run_normalized (pt : PyStr) :
    (∀ h ∈ canonicalHeaders, h <:+: EditorAgent.run pt) ∧
    (∀ l ∈ splitlines (EditorAgent.run pt), rstrip l = l) ∧
    (splitlines (EditorAgent.run pt)).Chain' (fun a b => a = [] → b ≠ []) := by
  obtain ⟨C, -, hsplit, hfix, -, hchain, hhdr, -, -⟩ := editor_core pt
  refine ⟨hhdr, ?_, ?_⟩
  · rw [hsplit]; exact hfix
  · rw [hsplit]; exact hchain

theorem writer_fallback_spec_witness :
    WriterAgent.run none (("t").data) (("ctx").data) ≠ [] ∧
    ("Methods:").data <:+: WriterAgent.run none (("t").data) (("ctx").data) := by
  exact ⟨(writer_fallback_spec (("t").data) (("ctx").data)).1,
    (writer_fallback_spec (("t").data) (("ctx").data)).2.1 (("Methods:").data) (by decide)⟩

set_option maxRecDepth 4000 in
theorem editor_run_normalized_witness :
    ("Abstract:").data <:+: EditorAgent.run (("Hi").data) ∧
    rstrip (("Abstract:").data) = ("Abstract:").data := by
  refine ⟨(editor_run_normalized (("Hi").data)).1 (("Abstract:").data) (by decide), ?_⟩
  exact (editor_run_normalized (("Hi").data)).2.1 (("Abstract:").data) (by decide)
